import Mathlib

/-!
Shallow embedding of the Sydney career matcher (src/models.py, src/engine.py).

Python dicts are modelled as insertion-ordered association lists over `String`
keys: lookup finds the first matching key, assignment updates the first
occurrence in place (keeping its position) or appends a fresh key at the end,
exactly as CPython dicts behave.  Python floats are modelled as rationals `ℚ`
(the cosine scorer, which takes real square roots, is modelled over `ℝ`).
-/

namespace CareerMatcher

/-- Association-list model of a Python `dict` with string keys. -/
abbrev AList (α : Type) : Type := List (String × α)

/-- Model of `d[k]` read access / `d.get(k)`: first occurrence wins. -/
def lookupA {α : Type} : AList α → String → Option α
  | [], _ => none
  | (k, v) :: rest, key => if k = key then some v else lookupA rest key

/-- Model of `d.get(k, dflt)`. -/
def lookupD {α : Type} (m : AList α) (key : String) (dflt : α) : α :=
  (lookupA m key).getD dflt

/-- Model of `d[k] = v`: update the first occurrence in place, else append. -/
def insertA {α : Type} : AList α → String → α → AList α
  | [], key, v => [(key, v)]
  | (k, w) :: rest, key, v =>
      if k = key then (k, v) :: rest else (k, w) :: insertA rest key v

/-- Model of `d[k] += v` on a key assumed present (a missing key is left
unchanged; the callers below only use it after ensuring presence). -/
def addVal {α : Type} [Add α] : AList α → String → α → AList α
  | [], _, _ => []
  | (k, w) :: rest, key, v =>
      if k = key then (k, w + v) :: rest else (k, w) :: addVal rest key v

/-! Embedding of src/models.py. -/

/-- The six trait codes, in source order (models.py `TRAITS`). -/
def TRAITS : List String := ["E", "C", "O", "A", "N", "M"]

/-- Model of `UserProfile`: running sums (`raw`) and answer counts (`cnt`),
both keyed by trait code (models.py lines 13-17). -/
structure UserProfile where
  raw : AList ℚ
  cnt : AList ℕ

/-- Model of a fresh `UserProfile()` with default factories. -/
def UserProfile.init : UserProfile :=
  ⟨TRAITS.map (fun t => (t, 0)), TRAITS.map (fun t => (t, 0))⟩

/-- Model of `UserProfile.update_trait` (models.py lines 19-25): ensure the
trait key exists in both dicts, reverse-score when flagged, then accumulate. -/
def UserProfile.update_trait (p : UserProfile) (trait : String) (score : ℤ)
    (reverse : Bool) : UserProfile :=
  let p' := if (lookupA p.raw trait).isSome then p
            else ⟨p.raw ++ [(trait, 0)], p.cnt ++ [(trait, 0)]⟩
  let val : ℚ := if reverse then 6 - (score : ℚ) else (score : ℚ)
  ⟨addVal p'.raw trait val, addVal p'.cnt trait 1⟩

/-- Model of `UserProfile.finalize` (models.py lines 27-34): per trait in
`raw` iteration order, average (midpoint 3 when unanswered) then rescale. -/
def UserProfile.finalize (p : UserProfile) : AList ℚ :=
  p.raw.map (fun q =>
    let n : ℕ := lookupD p.cnt q.1 0
    let avg : ℚ := if n = 0 then 3 else q.2 / (n : ℚ)
    (q.1, (avg - 1) / 4))

/-- Model of building a profile from a survey: one `update_trait` call per
answer `(trait, score, reverse)`, as `take_survey` does in main.py. -/
def buildProfile (answers : List (String × ℤ × Bool)) : UserProfile :=
  answers.foldl (fun p a => p.update_trait a.1 a.2.1 a.2.2) UserProfile.init

/-- Invariant of reachable `UserProfile` states: `raw` and `cnt` hold the
same keys, with no duplicate keys, and each running sum lies between 1 and 5
times its answer count (so it is 0 exactly when the count is 0). -/
def ProfileInv (p : UserProfile) : Prop :=
  (∀ t, (lookupA p.raw t).isSome ↔ (lookupA p.cnt t).isSome)
  ∧ (∀ t r n, lookupA p.raw t = some r → lookupA p.cnt t = some n →
      (n : ℚ) ≤ r ∧ r ≤ 5 * n)
  ∧ (p.raw.map Prod.fst).Nodup

/-- Model of `Preferences` (models.py lines 36-41). -/
structure Preferences where
  salary : ℤ
  stability : ℤ
  creativity : ℤ
  social : ℤ

/-- Model of `Preferences.to_weights` (models.py lines 43-51): floor each
rating at 1 and divide by the total. -/
def Preferences.to_weights (p : Preferences) : AList ℚ :=
  let vals : List (String × ℤ) :=
    [("salary", max 1 p.salary), ("stability", max 1 p.stability),
     ("creativity", max 1 p.creativity), ("social", max 1 p.social)]
  let s : ℤ := (vals.map (fun q => q.2)).sum
  vals.map (fun q => (q.1, (q.2 : ℚ) / (s : ℚ)))

/-! Embedding of src/engine.py. -/

/-- Model of a career record dict: `name`, `weights` (default empty) and
`preferences` (default empty), as read via `c["name"]`, `c.get("weights", ...)`
and `c.get("preferences", ...)`. -/
structure Career where
  name : String
  weights : AList ℚ
  preferences : AList ℚ
  deriving DecidableEq

/-- Lookup table `TRAIT_LABEL` from engine.py. -/
def TRAIT_LABEL : AList String :=
  [("E", "Extraversion (social expression)"),
   ("C", "Conscientiousness (planning & execution)"),
   ("O", "Openness (creativity & novelty)"),
   ("A", "Agreeableness (collaboration & empathy)"),
   ("N", "Emotional stability (stress tolerance)"),
   ("M", "Analytical mindset (logic & abstraction)")]

/-- Lookup table `TRAIT_STRENGTH` from engine.py. -/
def TRAIT_STRENGTH : AList String :=
  [("E", "supports clear communication and influencing others"),
   ("C", "helps break tasks down and deliver reliably"),
   ("O", "brings creative solutions and fresh perspectives"),
   ("A", "builds trust and smooth teamwork"),
   ("N", "stays calm and steady under pressure"),
   ("M", "enables structured thinking and data/logic reasoning")]

/-- Lookup table `IMPROVE_TIP` from engine.py. -/
def IMPROVE_TIP : AList String :=
  [("E", "prepare talking points and practice concise presentations"),
   ("C", "use pomodoro + kanban/checklists and review weekly"),
   ("O", "keep an idea backlog and schedule regular creative time"),
   ("A", "run more user interviews and practice empathy mapping"),
   ("N", "learn stress management (chunk work, exercise, breathing)"),
   ("M", "do more data analysis/logic drills and write out reasoning")]

/-- Lookup table `PREF_EN` from engine.py. -/
def PREF_EN : AList String :=
  [("salary", "compensation"), ("stability", "stability"),
   ("creativity", "creativity"), ("social", "social interaction")]

/-- Model of `WeightedScorer.score` (engine.py lines 52-54): dot product over
the keys of `weights`, missing traits contributing 0. -/
def WeightedScorer.score (traits weights : AList ℚ) : ℚ :=
  (weights.map (fun p => lookupD traits p.1 0 * p.2)).sum

/-- Sum of squares of the user traits restricted to the weight keys
(the argument of the first square root in `CosineScorer.score`). -/
def cosDen1Sq (traits weights : AList ℚ) : ℚ :=
  (weights.map (fun p => lookupD traits p.1 0 ^ 2)).sum

/-- Sum of squares of the weight values (the argument of the second square
root in `CosineScorer.score`). -/
def cosDen2Sq (weights : AList ℚ) : ℚ :=
  (weights.map (fun p => p.2 ^ 2)).sum

open Classical in
/-- Model of `CosineScorer.score` (engine.py lines 56-63), over `ℝ` because
of the square roots; returns 0 when either norm is 0. -/
noncomputable def CosineScorer.score (traits weights : AList ℚ) : ℝ :=
  let num : ℝ := (WeightedScorer.score traits weights : ℚ)
  let den1 : ℝ := Real.sqrt (cosDen1Sq traits weights : ℚ)
  let den2 : ℝ := Real.sqrt (cosDen2Sq weights : ℚ)
  if den1 = 0 ∨ den2 = 0 then 0 else num / (den1 * den2)

/-- Minimum of a value list, as Python `min(vals)` on a non-empty list
(the `[]` case is unreachable behind the emptiness guard). -/
def listMin : List ℚ → ℚ
  | [] => 0
  | x :: xs => xs.foldl min x

/-- Maximum of a value list, as Python `max(vals)` on a non-empty list. -/
def listMax : List ℚ → ℚ
  | [] => 0
  | x :: xs => xs.foldl max x

/-- Model of `minmax_normalize` (engine.py lines 66-74). -/
def minmax_normalize (scores : AList ℚ) : AList ℚ :=
  if scores.isEmpty then []
  else
    let vals := scores.map (fun p => p.2)
    let mn := listMin vals
    let mx := listMax vals
    if mx = mn then scores.map (fun p => (p.1, 1))
    else scores.map (fun p => (p.1, (p.2 - mn) / (mx - mn)))

/-- Comparison used to model Python's stable descending sort by score:
`a` may come before `b` when `b`'s score is at most `a`'s. -/
def scoreGE (a b : String × ℚ) : Prop := b.2 ≤ a.2

/-- Comparison used to model Python's stable ascending sort by score. -/
def scoreLE (a b : String × ℚ) : Prop := a.2 ≤ b.2

instance : DecidableRel scoreGE := fun a b => inferInstanceAs (Decidable (b.2 ≤ a.2))

instance : DecidableRel scoreLE := fun a b => inferInstanceAs (Decidable (a.2 ≤ b.2))

instance : IsTotal (String × ℚ) scoreGE := ⟨fun a b => le_total b.2 a.2⟩

instance : IsTrans (String × ℚ) scoreGE := ⟨fun _ _ _ h1 h2 => le_trans h2 h1⟩

instance : IsTotal (String × ℚ) scoreLE := ⟨fun a b => le_total a.2 b.2⟩

instance : IsTrans (String × ℚ) scoreLE := ⟨fun _ _ _ h1 h2 => le_trans h1 h2⟩

/-- Model of `sorted(items, key=lambda x: x[1], reverse=True)`: the stable
descending sort by score. -/
def sortDesc (l : List (String × ℚ)) : List (String × ℚ) := l.insertionSort scoreGE

/-- Model of `sorted(items, key=lambda x: x[1])`: the stable ascending
sort by score. -/
def sortAsc (l : List (String × ℚ)) : List (String × ℚ) := l.insertionSort scoreLE

/-- Model of Python's slice `l[:k]` for an arbitrary integer `k`: a
non-negative bound keeps the first `k` items, a negative bound drops the
last `|k|` items (clamped at zero). -/
def pySlice {α : Type} (l : List α) (k : ℤ) : List α :=
  if 0 ≤ k then l.take k.toNat else l.take (l.length - (-k).toNat)

/-- Model of Python `str.strip()`: drop whitespace characters from both ends
(structurally over the character list, so that it evaluates). -/
def pyStrip (s : String) : String :=
  ⟨((s.data.dropWhile Char.isWhitespace).reverse.dropWhile Char.isWhitespace).reverse⟩

/-- Per-career value stored by `Recommender.score` (engine.py lines 86-92):
base score plus `0.05` times the preference tie-break term. -/
def careerScore (scorer : AList ℚ → AList ℚ → ℚ) (pref_w : AList ℚ)
    (traits : AList ℚ) (c : Career) : ℚ :=
  scorer traits c.weights
    + (1 / 20) * (pref_w.map (fun q => q.2 * lookupD c.preferences q.1 0)).sum

/-- Model of `Recommender.score` (engine.py lines 83-93): fold over the
career list, keying by the whitespace-trimmed name. -/
def Recommender.score (scorer : AList ℚ → AList ℚ → ℚ) (prefs : Preferences)
    (careers : List Career) (traits : AList ℚ) : AList ℚ :=
  careers.foldl
    (fun scores c => insertA scores (pyStrip c.name) (careerScore scorer prefs.to_weights traits c))
    []

/-- Model of `Recommender.top_k` (engine.py lines 95-96): stable descending
sort then Python slice `[:k]`. -/
def Recommender.top_k (scores : AList ℚ) (k : ℤ) : List (String × ℚ) :=
  pySlice (sortDesc scores) k

/-- Per-trait contribution dict built by `Recommender.explain`
(engine.py line 120): `traits.get(t, 0.0) * w` for each weighted trait. -/
def contrib (traits weights : AList ℚ) : AList ℚ :=
  weights.map (fun p => (p.1, lookupD traits p.1 0 * p.2))

/-- Strengths sentence of `Recommender.explain` (engine.py lines 121-134):
up to two positive contributions, highest first, else a generic fallback. -/
def strengthsPart (traits weights : AList ℚ) : String :=
  let strengths := ((sortDesc (contrib traits weights)).filter
    (fun p => decide (0 < p.2))).take 2
  if strengths.isEmpty then
    "Why it fits: your overall profile aligns with this role’s weighting."
  else
    "Why it fits: "
      ++ String.intercalate "; "
        (strengths.map (fun p => lookupD TRAIT_LABEL p.1 p.1 ++ ": "
          ++ lookupD TRAIT_STRENGTH p.1 ""))
      ++ "."

/-- Text of the deficiency-flavoured watch-out sentence (engine.py lines 140-143). -/
def weakText (t : String) : String :=
  "Watch-out: " ++ lookupD TRAIT_LABEL t t
    ++ " is relatively weaker or conflicts with this role’s weighting; "
    ++ lookupD IMPROVE_TIP t "" ++ "."

/-- Text of the growth-flavoured watch-out sentence (engine.py lines 144-148). -/
def growthText (t : String) : String :=
  "Potential growth: " ++ lookupD TRAIT_LABEL t t
    ++ " still has room to improve; " ++ lookupD IMPROVE_TIP t "" ++ "."

/-- Watch-out sentence of `Recommender.explain` (engine.py lines 122-148):
the head of the ascending sort of contributions, phrased by its sign. -/
def watchPart (traits weights : AList ℚ) : Option String :=
  match (sortAsc (contrib traits weights)).head? with
  | none => none
  | some (t, v) => if v ≤ 0 then some (weakText t) else some (growthText t)

/-- First entry attaining the maximal value, as Python
`max(items, key=lambda x: x[1])` (engine.py line 111). -/
def argmaxFirst : AList ℚ → Option (String × ℚ)
  | [] => none
  | p :: rest => some (rest.foldl (fun best q => if best.2 < q.2 then q else best) p)

/-- Model of `preference_blurb` (engine.py lines 107-113): empty string when
the career declares no preference emphasis. -/
def preference_blurb (c : Career) : String :=
  match argmaxFirst c.preferences with
  | none => ""
  | some (k, _) =>
      "In addition, this career values “" ++ lookupD PREF_EN k k
        ++ "”, which aligns with your preferences; a small tie-break boost was applied."

/-- Explanation text assembled for one career (engine.py lines 115-155):
strengths sentence, optional watch-out sentence, optional preference blurb,
joined by single spaces. -/
def explainText (c : Career) (traits : AList ℚ) : String :=
  let parts := [strengthsPart traits c.weights]
  let parts := parts ++ (match watchPart traits c.weights with
    | some s => [s]
    | none => [])
  let pText := preference_blurb c
  let parts := parts ++ (if pText = "" then [] else [pText])
  String.intercalate " " parts

/-- Model of `next(c for c in self.careers if c["name"] == name)` without the
exception: the first career whose untrimmed name equals `name`, if any. -/
def findCareer (careers : List Career) (name : String) : Option Career :=
  careers.find? (fun c => c.name == name)

/-- Loop of `Recommender.explain` over the ranked entries; `none` models the
`StopIteration` escape when a ranked name matches no career exactly. -/
def explainLoop (careers : List Career) (traits : AList ℚ) :
    AList String → List (String × ℚ) → Option (AList String)
  | acc, [] => some acc
  | acc, (name, _) :: rest =>
      match findCareer careers name with
      | none => none
      | some c => explainLoop careers traits (insertA acc name (explainText c traits)) rest

/-- Model of `Recommender.explain` (engine.py lines 98-157). -/
def Recommender.explain (careers : List Career) (traits : AList ℚ)
    (topk : List (String × ℚ)) : Option (AList String) :=
  explainLoop careers traits [] topk

/-- Rescaling every value of a score mapping while keeping keys and order. -/
def mapVals (f : ℚ → ℚ) (l : AList ℚ) : AList ℚ :=
  l.map (fun p => (p.1, f p.2))

/-- The career names of a ranking, in ranking order. -/
def namesOf (l : List (String × ℚ)) : List String := l.map Prod.fst

theorem lookupA_insertA {α : Type} (m : AList α) (k : String) (v : α) (key : String) :
    lookupA (insertA m k v) key = if key = k then some v else lookupA m key := by
  induction m with
  | nil =>
      by_cases h : key = k
      · simp [insertA, lookupA, h]
      · simp [insertA, lookupA, h, Ne.symm h]
  | cons p rest ih =>
      obtain ⟨k1, w⟩ := p
      by_cases h1 : k1 = k
      · subst h1
        by_cases h2 : key = k1
        · simp [insertA, lookupA, h2]
        · simp [insertA, lookupA, h2, Ne.symm h2]
      · by_cases h2 : k1 = key
        · subst h2
          simp [insertA, lookupA, h1, Ne.symm h1]
        · simp [insertA, lookupA, h1, h2, ih]

theorem lookupA_append {α : Type} (m m' : AList α) (key : String) :
    lookupA (m ++ m') key =
      match lookupA m key with
      | some v => some v
      | none => lookupA m' key := by
  induction m with
  | nil => simp [lookupA]
  | cons p rest ih =>
      obtain ⟨k, v⟩ := p
      by_cases h : k = key <;> simp [lookupA, h, ih]

theorem lookupA_addVal {α : Type} [Add α] (m : AList α) (k : String) (v : α) (key : String) :
    lookupA (addVal m k v) key =
      if key = k then (lookupA m key).map (· + v) else lookupA m key := by
  induction m with
  | nil => by_cases h : key = k <;> simp [addVal, lookupA, h]
  | cons p rest ih =>
      obtain ⟨k1, w⟩ := p
      by_cases h1 : k1 = k
      · by_cases h2 : key = k1
        · simp [addVal, lookupA, h1, h2]
        · have hkk : ¬key = k := h1 ▸ h2
          simp [addVal, lookupA, h1, h2, Ne.symm hkk, hkk]
      · by_cases h2 : k1 = key
        · simp [addVal, lookupA, h1, h2, Ne.symm h1, h2 ▸ h1]
        · simp [addVal, lookupA, h1, h2, ih]

theorem keys_addVal {α : Type} [Add α] (m : AList α) (k : String) (v : α) :
    (addVal m k v).map Prod.fst = m.map Prod.fst := by
  induction m with
  | nil => simp [addVal]
  | cons p rest ih =>
      obtain ⟨k1, w⟩ := p
      by_cases h : k1 = k <;> simp [addVal, h, ih]

theorem lookupA_eq_none_iff {α : Type} (m : AList α) (key : String) :
    lookupA m key = none ↔ key ∉ m.map Prod.fst := by
  induction m with
  | nil => simp [lookupA]
  | cons p rest ih =>
      obtain ⟨k, v⟩ := p
      by_cases h : k = key
      · simp [lookupA, h]
      · simp only [lookupA, if_neg h, List.map_cons, List.mem_cons, ih]
        constructor
        · intro hn hc
          rcases hc with hc | hc
          · exact h hc.symm
          · exact hn hc
        · intro hn
          exact fun hc => hn (Or.inr hc)

theorem lookupA_of_mem_nodup {α : Type} {m : AList α} {q : String × α}
    (hq : q ∈ m) (hnd : (m.map Prod.fst).Nodup) : lookupA m q.1 = some q.2 := by
  induction m with
  | nil => simp at hq
  | cons p rest ih =>
      obtain ⟨k, v⟩ := p
      simp only [List.map_cons, List.nodup_cons] at hnd
      rcases List.mem_cons.mp hq with h | h
      · subst h; simp [lookupA]
      · have hk : k ≠ q.1 := by
          intro hkey
          exact hnd.1 (hkey ▸ (List.mem_map.mpr ⟨q, h, rfl⟩))
        simp [lookupA, hk, ih h hnd.2]

theorem lookupA_map_entry {α β : Type} (g : String → α → β) (m : AList α) (key : String) :
    lookupA (m.map (fun q => (q.1, g q.1 q.2))) key = (lookupA m key).map (g key) := by
  induction m with
  | nil => simp [lookupA]
  | cons p rest ih =>
      obtain ⟨k, v⟩ := p
      by_cases h : k = key
      · subst h; simp [lookupA]
      · simp [lookupA, h, ih]

/-! Helper lemmas about list minima and maxima. -/

theorem foldl_min_le (l : List ℚ) (a : ℚ) :
    l.foldl min a ≤ a ∧ ∀ x ∈ l, l.foldl min a ≤ x := by
  induction l generalizing a with
  | nil => simp
  | cons b l ih =>
      refine ⟨le_trans (ih (min a b)).1 (min_le_left a b), ?_⟩
      intro x hx
      rcases List.mem_cons.mp hx with h | h
      · subst h
        exact le_trans (ih (min a x)).1 (min_le_right a x)
      · exact (ih (min a b)).2 x h

theorem le_foldl_max (l : List ℚ) (a : ℚ) :
    a ≤ l.foldl max a ∧ ∀ x ∈ l, x ≤ l.foldl max a := by
  induction l generalizing a with
  | nil => simp
  | cons b l ih =>
      refine ⟨le_trans (le_max_left a b) (ih (max a b)).1, ?_⟩
      intro x hx
      rcases List.mem_cons.mp hx with h | h
      · subst h
        exact le_trans (le_max_right a x) (ih (max a x)).1
      · exact (ih (max a b)).2 x h

theorem foldl_min_mem (l : List ℚ) (a : ℚ) :
    l.foldl min a = a ∨ l.foldl min a ∈ l := by
  induction l generalizing a with
  | nil => exact Or.inl rfl
  | cons b l ih =>
      rw [List.foldl_cons]
      rcases ih (min a b) with h | h
      · rcases min_cases a b with ⟨hm, _⟩ | ⟨hm, _⟩
        · exact Or.inl (h.trans hm)
        · exact Or.inr (List.mem_cons.mpr (Or.inl (h.trans hm)))
      · exact Or.inr (List.mem_cons.mpr (Or.inr h))

theorem foldl_max_mem (l : List ℚ) (a : ℚ) :
    l.foldl max a = a ∨ l.foldl max a ∈ l := by
  induction l generalizing a with
  | nil => exact Or.inl rfl
  | cons b l ih =>
      rw [List.foldl_cons]
      rcases ih (max a b) with h | h
      · rcases max_cases a b with ⟨hm, _⟩ | ⟨hm, _⟩
        · exact Or.inl (h.trans hm)
        · exact Or.inr (List.mem_cons.mpr (Or.inl (h.trans hm)))
      · exact Or.inr (List.mem_cons.mpr (Or.inr h))

theorem listMin_le {xs : List ℚ} {x : ℚ} (hx : x ∈ xs) : listMin xs ≤ x := by
  cases xs with
  | nil => simp at hx
  | cons a l =>
      rcases List.mem_cons.mp hx with h | h
      · subst h; exact (foldl_min_le l x).1
      · exact (foldl_min_le l a).2 x h

theorem le_listMax {xs : List ℚ} {x : ℚ} (hx : x ∈ xs) : x ≤ listMax xs := by
  cases xs with
  | nil => simp at hx
  | cons a l =>
      rcases List.mem_cons.mp hx with h | h
      · subst h; exact (le_foldl_max l x).1
      · exact (le_foldl_max l a).2 x h

theorem listMin_mem {xs : List ℚ} (h : xs ≠ []) : listMin xs ∈ xs := by
  cases xs with
  | nil => exact absurd rfl h
  | cons a l =>
      rcases foldl_min_mem l a with h' | h'
      · exact List.mem_cons.mpr (Or.inl h')
      · exact List.mem_cons.mpr (Or.inr h')

theorem listMax_mem {xs : List ℚ} (h : xs ≠ []) : listMax xs ∈ xs := by
  cases xs with
  | nil => exact absurd rfl h
  | cons a l =>
      rcases foldl_max_mem l a with h' | h'
      · exact List.mem_cons.mpr (Or.inl h')
      · exact List.mem_cons.mpr (Or.inr h')

theorem all_eq_of_min_eq_max {xs : List ℚ} (h : listMax xs = listMin xs) :
    ∀ x ∈ xs, ∀ y ∈ xs, x = y := by
  intro x hx y hy
  have hx1 := listMin_le hx
  have hx2 := le_listMax hx
  have hy1 := listMin_le hy
  have hy2 := le_listMax hy
  have : x = listMin xs := le_antisymm (h ▸ hx2) hx1
  have hyv : y = listMin xs := le_antisymm (h ▸ hy2) hy1
  rw [this, hyv]

/-! Claim theorems. -/

/-- C6: the weighted scorer on an all-zero weight mapping returns exactly 0
for every trait vector; the cosine scorer returns exactly 0 whenever either
restricted norm is 0, in particular for all-zero weights or all-zero traits
on the weight dimensions, and its non-degenerate branch never divides by
zero (the denominator product is nonzero whenever the guard fails). -/
theorem scorer_degenerate_zero (traits weights : AList ℚ) :
    ((∀ p ∈ weights, p.2 = 0) → WeightedScorer.score traits weights = 0)
    ∧ (Real.sqrt (cosDen1Sq traits weights) = 0 ∨ Real.sqrt (cosDen2Sq weights) = 0 →
        CosineScorer.score traits weights = 0)
    ∧ ((∀ p ∈ weights, p.2 = 0) → CosineScorer.score traits weights = 0)
    ∧ ((∀ p ∈ weights, lookupD traits p.1 0 = 0) → CosineScorer.score traits weights = 0)
    ∧ (¬(Real.sqrt (cosDen1Sq traits weights) = 0 ∨ Real.sqrt (cosDen2Sq weights) = 0) →
        Real.sqrt (cosDen1Sq traits weights) * Real.sqrt (cosDen2Sq weights) ≠ 0) := by
  have hcos : ∀ (h : Real.sqrt (cosDen1Sq traits weights) = 0
      ∨ Real.sqrt (cosDen2Sq weights) = 0), CosineScorer.score traits weights = 0 := by
    intro h
    simp only [CosineScorer.score]
    rw [if_pos h]
  refine ⟨?_, hcos, ?_, ?_, ?_⟩
  · intro h
    apply List.sum_eq_zero
    intro x hx
    rcases List.mem_map.mp hx with ⟨p, hp, rfl⟩
    rw [h p hp, mul_zero]
  · intro h
    apply hcos
    right
    have h2 : cosDen2Sq weights = 0 := by
      apply List.sum_eq_zero
      intro x hx
      rcases List.mem_map.mp hx with ⟨p, hp, rfl⟩
      rw [h p hp]
      norm_num
    rw [h2]
    push_cast
    exact Real.sqrt_zero
  · intro h
    apply hcos
    left
    have h1 : cosDen1Sq traits weights = 0 := by
      apply List.sum_eq_zero
      intro x hx
      rcases List.mem_map.mp hx with ⟨p, hp, rfl⟩
      rw [h p hp]
      norm_num
    rw [h1]
    push_cast
    exact Real.sqrt_zero
  · intro h
    push_neg at h
    exact mul_ne_zero h.1 h.2

/-- Witness for C6 at concrete degenerate inputs. -/
theorem scorer_degenerate_zero_witness :
    WeightedScorer.score [("E", 1)] [("E", 0)] = 0
    ∧ CosineScorer.score [("E", 1)] [("E", 0)] = 0
    ∧ CosineScorer.score [("E", 0)] [("E", 2)] = 0 :=
  ⟨(scorer_degenerate_zero [("E", 1)] [("E", 0)]).1 (by decide),
   (scorer_degenerate_zero [("E", 1)] [("E", 0)]).2.2.1 (by decide),
   (scorer_degenerate_zero [("E", 0)] [("E", 2)]).2.2.2.1 (by decide)⟩

/-- C7: `minmax_normalize` maps the empty mapping to the empty mapping, a
mapping with all values equal to the constant-1 mapping, and otherwise
rescales every entry to `(v - min) / (max - min)`, where `listMin`/`listMax`
are characterised as the least and greatest values present. -/
theorem minmax_normalize_cases (scores : AList ℚ) :
    (scores = [] → minmax_normalize scores = [])
    ∧ ((∀ p ∈ scores, ∀ q ∈ scores, p.2 = q.2) →
        minmax_normalize scores = scores.map (fun p => (p.1, 1)))
    ∧ ((∃ p ∈ scores, ∃ q ∈ scores, p.2 ≠ q.2) →
        minmax_normalize scores =
          scores.map (fun p =>
            (p.1, (p.2 - listMin (scores.map (fun r => r.2)))
              / (listMax (scores.map (fun r => r.2))
                  - listMin (scores.map (fun r => r.2))))))
    ∧ (scores ≠ [] →
        listMin (scores.map (fun r => r.2)) ∈ scores.map (fun r => r.2)
        ∧ (∀ x ∈ scores.map (fun r => r.2), listMin (scores.map (fun r => r.2)) ≤ x)
        ∧ listMax (scores.map (fun r => r.2)) ∈ scores.map (fun r => r.2)
        ∧ (∀ x ∈ scores.map (fun r => r.2), x ≤ listMax (scores.map (fun r => r.2)))) := by
  refine ⟨?_, ?_, ?_, ?_⟩
  · intro h
    subst h
    rfl
  · intro h
    rcases hne : scores with _ | ⟨p0, rest⟩
    · rfl
    · rw [← hne]
      have hnil : scores ≠ [] := by rw [hne]; simp
      have hmm : listMax (scores.map (fun r => r.2)) = listMin (scores.map (fun r => r.2)) := by
        have hmn := @listMin_mem (scores.map (fun r => r.2)) (by simp [hne])
        have hmx := @listMax_mem (scores.map (fun r => r.2)) (by simp [hne])
        rcases List.mem_map.mp hmn with ⟨pn, hpn, hpn2⟩
        rcases List.mem_map.mp hmx with ⟨px, hpx, hpx2⟩
        rw [← hpn2, ← hpx2]
        exact h px hpx pn hpn
      simp only [minmax_normalize]
      rw [if_neg (by simp [hne]), if_pos hmm]
  · intro h
    rcases h with ⟨p, hp, q, hq, hne⟩
    have hnil : scores ≠ [] := by
      intro h'
      rw [h'] at hp
      simp at hp
    have hmm : listMax (scores.map (fun r => r.2)) ≠ listMin (scores.map (fun r => r.2)) := by
      intro h'
      exact hne (all_eq_of_min_eq_max h' p.2 (List.mem_map.mpr ⟨p, hp, rfl⟩)
        q.2 (List.mem_map.mpr ⟨q, hq, rfl⟩))
    simp only [minmax_normalize]
    rw [if_neg (by simp [hnil]), if_neg hmm]
  · intro hnil
    have hne : scores.map (fun r => r.2) ≠ [] := by simp [hnil]
    exact ⟨listMin_mem hne, fun x hx => listMin_le hx, listMax_mem hne,
      fun x hx => le_listMax hx⟩

/-- Witness for C7 on a concrete all-equal mapping. -/
theorem minmax_normalize_cases_witness :
    minmax_normalize [("a", (2 : ℚ)), ("b", 2)] = [("a", 1), ("b", 1)] := by
  have h := (minmax_normalize_cases [("a", (2 : ℚ)), ("b", 2)]).2.1 (by decide)
  simpa using h

/-- C8: `minmax_normalize` is the identity on any non-empty mapping whose
minimum value is 0 and whose maximum value is 1. -/
theorem minmax_normalize_idempotent (scores : AList ℚ) (hnil : scores ≠ [])
    (hmn : listMin (scores.map (fun r => r.2)) = 0)
    (hmx : listMax (scores.map (fun r => r.2)) = 1) :
    minmax_normalize scores = scores := by
  simp only [minmax_normalize]
  rw [if_neg (by simp [hnil]), if_neg (by rw [hmn, hmx]; norm_num), hmn, hmx]
  simp

/-- Witness for C8 on a concrete already-normalised mapping. -/
theorem minmax_normalize_idempotent_witness :
    minmax_normalize [("a", (0 : ℚ)), ("b", 1)] = [("a", 0), ("b", 1)] :=
  minmax_normalize_idempotent [("a", (0 : ℚ)), ("b", 1)] (by decide) (by decide) (by decide)

/-- C9: for ratings in `[1, 5]`, the derived preference weights are all
non-negative and sum to exactly 1. -/
theorem to_weights_normalized (p : Preferences)
    (h1 : 1 ≤ p.salary ∧ p.salary ≤ 5) (h2 : 1 ≤ p.stability ∧ p.stability ≤ 5)
    (h3 : 1 ≤ p.creativity ∧ p.creativity ≤ 5) (h4 : 1 ≤ p.social ∧ p.social ≤ 5) :
    (∀ q ∈ p.to_weights, 0 ≤ q.2)
    ∧ (p.to_weights.map (fun q => q.2)).sum = 1 := by
  have e1 : (1 : ℤ) ≤ max 1 p.salary := le_max_left _ _
  have e2 : (1 : ℤ) ≤ max 1 p.stability := le_max_left _ _
  have e3 : (1 : ℤ) ≤ max 1 p.creativity := le_max_left _ _
  have e4 : (1 : ℤ) ≤ max 1 p.social := le_max_left _ _
  have hS : (0 : ℤ) < max 1 p.salary + (max 1 p.stability
      + (max 1 p.creativity + max 1 p.social)) := by linarith
  have hSQ : ((max 1 p.salary + (max 1 p.stability
      + (max 1 p.creativity + max 1 p.social)) : ℤ) : ℚ) ≠ 0 := by
    exact_mod_cast ne_of_gt hS
  constructor
  · intro q hq
    simp only [Preferences.to_weights, List.map_cons, List.map_nil, List.sum_cons,
      List.sum_nil, add_zero, List.mem_cons, List.not_mem_nil, or_false] at hq
    have hnum : ∀ a : ℤ, (1 : ℤ) ≤ a →
        0 ≤ (a : ℚ) / ((max 1 p.salary + (max 1 p.stability
          + (max 1 p.creativity + max 1 p.social)) : ℤ) : ℚ) := by
      intro a ha
      apply div_nonneg
      · exact_mod_cast le_trans zero_le_one ha
      · exact_mod_cast le_of_lt hS
    rcases hq with h | h | h | h <;>
      · rw [h]
        first
        | exact hnum _ e1
        | exact hnum _ e2
        | exact hnum _ e3
        | exact hnum _ e4
  · simp only [Preferences.to_weights, List.map_cons, List.map_nil, List.sum_cons,
      List.sum_nil, add_zero]
    rw [div_add_div_same, div_add_div_same, div_add_div_same]
    rw [div_eq_one_iff_eq hSQ]
    push_cast
    ring

/-- Witness for C9 at the neutral preference profile. -/
theorem to_weights_normalized_witness :
    (∀ q ∈ (Preferences.mk 3 3 3 3).to_weights, 0 ≤ q.2)
    ∧ ((Preferences.mk 3 3 3 3).to_weights.map (fun q => q.2)).sum = 1 :=
  to_weights_normalized (Preferences.mk 3 3 3 3) (by decide) (by decide) (by decide) (by decide)

theorem getLast?_cons_ne {α : Type} (a : α) (xs : List α) (h : xs ≠ []) :
    (a :: xs).getLast? = xs.getLast? := by
  cases xs with
  | nil => exact absurd rfl h
  | cons b l => exact List.getLast?_cons_cons

theorem lookupA_foldl_insert (f : Career → ℚ) (key : Career → String)
    (cs : List Career) (acc : AList ℚ) (name : String) :
    lookupA (cs.foldl (fun m c => insertA m (key c) (f c)) acc) name =
      match (cs.filter (fun c => key c == name)).getLast? with
      | some c => some (f c)
      | none => lookupA acc name := by
  induction cs generalizing acc with
  | nil => simp
  | cons c cs ih =>
      rw [List.foldl_cons, ih (insertA acc (key c) (f c))]
      by_cases hc : key c = name
      · rw [List.filter_cons_of_pos (by simpa using hc)]
        cases hcs : (cs.filter (fun c => key c == name)).getLast? with
        | some c'' =>
            have hne : cs.filter (fun c => key c == name) ≠ [] := by
              intro h'
              rw [h'] at hcs
              simp at hcs
            rw [getLast?_cons_ne _ _ hne, hcs]
        | none =>
            have hnil : cs.filter (fun c => key c == name) = [] :=
              List.getLast?_eq_none_iff.mp hcs
            rw [hnil]
            simp only [List.getLast?_singleton]
            rw [lookupA_insertA, if_pos hc.symm]
      · rw [List.filter_cons_of_neg (by simpa using hc)]
        cases hcs : (cs.filter (fun c => key c == name)).getLast? with
        | some c'' => rfl
        | none =>
            simp only []
            rw [lookupA_insertA, if_neg (fun h' => hc h'.symm)]

/-- C1: the mapping produced by `Recommender.score` sends each trimmed career
name to `base + 0.05 * tb` (`careerScore`) computed from the last career
record in iteration order bearing that trimmed name, and holds no other
keys: duplicate trimmed names silently overwrite one another. -/
theorem recommender_score_last_wins (scorer : AList ℚ → AList ℚ → ℚ)
    (prefs : Preferences) (careers : List Career) (traits : AList ℚ) (name : String) :
    lookupA (Recommender.score scorer prefs careers traits) name =
      ((careers.filter (fun c => (pyStrip c.name) == name)).getLast?).map
        (careerScore scorer prefs.to_weights traits) := by
  rw [Recommender.score, lookupA_foldl_insert (careerScore scorer prefs.to_weights traits)
    (fun c => (pyStrip c.name)) careers [] name]
  cases hcs : (careers.filter (fun c => (pyStrip c.name) == name)).getLast? with
  | some c => rfl
  | none => rfl

theorem filter_sortDesc (l : List (String × ℚ)) (v : ℚ) :
    (sortDesc l).filter (fun p => p.2 == v) = l.filter (fun p => p.2 == v) := by
  have hpw : (l.filter (fun p => p.2 == v)).Pairwise scoreGE := by
    apply List.pairwise_of_forall_mem_list
    intro a ha b hb
    have ha2 : a.2 = v := by simpa using (List.mem_filter.mp ha).2
    have hb2 : b.2 = v := by simpa using (List.mem_filter.mp hb).2
    show b.2 ≤ a.2
    rw [ha2, hb2]
  have h1 : List.Sublist (l.filter (fun p => p.2 == v)) (sortDesc l) :=
    List.sublist_insertionSort hpw (List.filter_sublist l)
  have h2 : List.Sublist ((l.filter (fun p => p.2 == v)).filter (fun p => p.2 == v))
      ((sortDesc l).filter (fun p => p.2 == v)) := h1.filter _
  have hc : (l.filter (fun p => p.2 == v)).filter (fun p => p.2 == v)
      = l.filter (fun p => p.2 == v) := by
    apply List.filter_eq_self.mpr
    intro a ha
    exact (List.mem_filter.mp ha).2
  rw [hc] at h2
  have hperm : List.Perm ((sortDesc l).filter (fun p => p.2 == v))
      (l.filter (fun p => p.2 == v)) :=
    (List.perm_insertionSort scoreGE l).filter _
  exact (h2.eq_of_length hperm.length_eq.symm).symm

theorem length_sortDesc (l : List (String × ℚ)) : (sortDesc l).length = l.length :=
  List.length_insertionSort scoreGE l

/-- C2 (amended): `Recommender.top_k` is the stable descending sort by score
(sorted w.r.t. `scoreGE`, and value-classes keep their original order)
truncated by Python slice semantics: a bound `k ≥ 0` keeps the first
`min k n` entries (so `k = 0` yields the empty ranking and `k ≥ n` yields
all entries); a negative bound keeps the first `n - |k|` entries (clamped
at zero) rather than yielding the empty ranking. -/
theorem topk_sorted_stable_slice (scores : AList ℚ) (k : ℤ) :
    List.Sorted scoreGE (sortDesc scores)
    ∧ (∀ v : ℚ, (sortDesc scores).filter (fun p => p.2 == v)
        = scores.filter (fun p => p.2 == v))
    ∧ (0 ≤ k → Recommender.top_k scores k = (sortDesc scores).take k.toNat)
    ∧ Recommender.top_k scores 0 = []
    ∧ ((scores.length : ℤ) ≤ k → Recommender.top_k scores k = sortDesc scores)
    ∧ (k < 0 →
        Recommender.top_k scores k
          = (sortDesc scores).take (scores.length - (-k).toNat)) := by
  refine ⟨List.sorted_insertionSort scoreGE scores, fun v => filter_sortDesc scores v,
    ?_, ?_, ?_, ?_⟩
  · intro hk
    rw [Recommender.top_k, pySlice, if_pos hk]
  · rw [Recommender.top_k, pySlice, if_pos le_rfl]
    simp
  · intro hk
    have hk0 : (0 : ℤ) ≤ k := le_trans (by exact_mod_cast Nat.zero_le _) hk
    rw [Recommender.top_k, pySlice, if_pos hk0]
    apply List.take_of_length_le
    rw [length_sortDesc]
    omega
  · intro hk
    rw [Recommender.top_k, pySlice, if_neg (by omega), length_sortDesc]

/-- Witness for C2 at concrete rankings. -/
theorem topk_sorted_stable_slice_witness :
    Recommender.top_k [("a", (1 : ℚ)), ("b", 0), ("c", 2)] 100
      = sortDesc [("a", (1 : ℚ)), ("b", 0), ("c", 2)]
    ∧ Recommender.top_k [("a", (1 : ℚ)), ("b", 0), ("c", 2)] 0 = [] :=
  ⟨(topk_sorted_stable_slice [("a", (1 : ℚ)), ("b", 0), ("c", 2)] 100).2.2.2.2.1 (by decide),
   (topk_sorted_stable_slice [("a", (1 : ℚ)), ("b", 0), ("c", 2)] 0).2.2.2.1⟩

/-- Counterexample to C2 as stated: `k = -1` is ≤ 0, yet on a two-entry
mapping `top_k` returns a non-empty ranking (Python `l[:-1]` drops only the
last element). -/
theorem topk_negative_k_not_empty :
    (-1 : ℤ) ≤ 0 ∧ Recommender.top_k [("a", (1 : ℚ)), ("b", 0)] (-1) ≠ [] := by
  constructor
  · decide
  · intro h
    have : Recommender.top_k [("a", (1 : ℚ)), ("b", 0)] (-1) = [("a", 1)] := by decide
    rw [this] at h
    exact List.cons_ne_nil _ _ h

theorem namesOf_mapVals (f : ℚ → ℚ) (l : AList ℚ) : namesOf (mapVals f l) = namesOf l := by
  simp only [namesOf, mapVals, List.map_map]
  rfl

theorem pySlice_mapVals (f : ℚ → ℚ) (l : AList ℚ) (k : ℤ) :
    pySlice (mapVals f l) k = mapVals f (pySlice l k) := by
  simp only [pySlice, mapVals, List.length_map]
  by_cases hk : 0 ≤ k
  · rw [if_pos hk, if_pos hk, List.map_take]
  · rw [if_neg hk, if_neg hk, List.map_take]

theorem sortDesc_all_eq {l : List (String × ℚ)} (h : ∀ p ∈ l, ∀ q ∈ l, p.2 = q.2) :
    sortDesc l = l := by
  apply List.Sorted.insertionSort_eq
  apply List.pairwise_of_forall_mem_list
  intro a ha b hb
  exact le_of_eq (h b hb a ha)

theorem sortDesc_mapVals {f : ℚ → ℚ} (hf : StrictMono f) (l : AList ℚ) :
    sortDesc (mapVals f l) = mapVals f (sortDesc l) := by
  have hmap := List.map_insertionSort scoreGE scoreGE
    (fun p : String × ℚ => (p.1, f p.2)) l ?_
  · exact hmap.symm
  · intro a ha b hb
    show b.2 ≤ a.2 ↔ f b.2 ≤ f a.2
    exact (hf.le_iff_le).symm

/-- C10: the name order produced by `top_k` is invariant under any strictly
monotone rescaling of the scores, and in particular under
`minmax_normalize`: ranking order depends only on the raw scores. -/
theorem topk_order_monotone_invariant (scores : AList ℚ) (k : ℤ) :
    (∀ f : ℚ → ℚ, StrictMono f →
      namesOf (Recommender.top_k (mapVals f scores) k)
        = namesOf (Recommender.top_k scores k))
    ∧ namesOf (Recommender.top_k (minmax_normalize scores) k)
        = namesOf (Recommender.top_k scores k) := by
  have hpart : ∀ f : ℚ → ℚ, StrictMono f →
      namesOf (Recommender.top_k (mapVals f scores) k)
        = namesOf (Recommender.top_k scores k) := by
    intro f hf
    rw [Recommender.top_k, Recommender.top_k, sortDesc_mapVals hf, pySlice_mapVals,
      namesOf_mapVals]
  refine ⟨hpart, ?_⟩
  by_cases hall : ∀ p ∈ scores, ∀ q ∈ scores, p.2 = q.2
  · have h1 : minmax_normalize scores = mapVals (fun _ => 1) scores := by
      rcases hs : scores with _ | ⟨p0, rest⟩
      · rfl
      · rw [← hs]
        have hnil : scores ≠ [] := by rw [hs]; simp
        have hmm : listMax (scores.map (fun r => r.2))
            = listMin (scores.map (fun r => r.2)) := by
          have hmn := @listMin_mem (scores.map (fun r => r.2)) (by simp [hnil])
          have hmx := @listMax_mem (scores.map (fun r => r.2)) (by simp [hnil])
          rcases List.mem_map.mp hmn with ⟨pn, hpn, hpn2⟩
          rcases List.mem_map.mp hmx with ⟨px, hpx, hpx2⟩
          rw [← hpn2, ← hpx2]
          exact hall px hpx pn hpn
        simp only [minmax_normalize]
        rw [if_neg (by simp [hnil]), if_pos hmm]
        rfl
    have h2 : sortDesc (mapVals (fun _ => 1) scores) = mapVals (fun _ => 1) scores := by
      apply sortDesc_all_eq
      intro p hp q hq
      rcases List.mem_map.mp hp with ⟨a, _, rfl⟩
      rcases List.mem_map.mp hq with ⟨b, _, rfl⟩
      rfl
    have h3 : sortDesc scores = scores := sortDesc_all_eq hall
    rw [h1, Recommender.top_k, Recommender.top_k, h2, h3, pySlice_mapVals, namesOf_mapVals]
  · push_neg at hall
    obtain ⟨p, hp, q, hq, hne⟩ := hall
    have hnil : scores ≠ [] := by
      intro h'
      rw [h'] at hp
      simp at hp
    have hple : listMin (scores.map (fun r => r.2)) ≤ p.2 :=
      listMin_le (List.mem_map.mpr ⟨p, hp, rfl⟩)
    have hpge : p.2 ≤ listMax (scores.map (fun r => r.2)) :=
      le_listMax (List.mem_map.mpr ⟨p, hp, rfl⟩)
    have hlt : listMin (scores.map (fun r => r.2)) < listMax (scores.map (fun r => r.2)) := by
      rcases lt_or_eq_of_le (le_trans hple hpge) with h | h
      · exact h
      · exact absurd (all_eq_of_min_eq_max h.symm p.2 (List.mem_map.mpr ⟨p, hp, rfl⟩)
          q.2 (List.mem_map.mpr ⟨q, hq, rfl⟩)) hne
    have hrw : minmax_normalize scores
        = mapVals (fun v => (v - listMin (scores.map (fun r => r.2)))
            / (listMax (scores.map (fun r => r.2))
                - listMin (scores.map (fun r => r.2)))) scores := by
      simp only [minmax_normalize]
      rw [if_neg (by simp [hnil]), if_neg hlt.ne']
      rfl
    rw [hrw]
    apply hpart
    intro a b hab
    have hpos : 0 < listMax (scores.map (fun r => r.2))
        - listMin (scores.map (fun r => r.2)) := sub_pos.mpr hlt
    have hmul := mul_lt_mul_of_pos_right
      (sub_lt_sub_right hab (listMin (scores.map (fun r => r.2)))) (inv_pos.mpr hpos)
    simpa [div_eq_mul_inv] using hmul

/-- Witness for C10 with the strictly monotone rescale `v + 1`. -/
theorem topk_order_monotone_invariant_witness :
    namesOf (Recommender.top_k (mapVals (fun v => v + 1) [("a", (1 : ℚ)), ("b", 0)]) 2)
      = namesOf (Recommender.top_k [("a", (1 : ℚ)), ("b", 0)] 2) :=
  (topk_order_monotone_invariant [("a", (1 : ℚ)), ("b", 0)] 2).1 (fun v => v + 1)
    (by intro a b hab; simpa using hab)

/-- C3: for a career with a non-empty weight mapping, the explanation's
watch-out is the single trait with the lowest contribution
`traits[t] * weight[t]` regardless of sign; the sentence is the
weaker/conflicts one exactly when that lowest contribution is ≤ 0 and the
room-to-improve one otherwise (the two sentences are never equal); the
watch-out sentence is omitted exactly when the career has no weighted
traits. -/
theorem explain_watchout_lowest (traits weights : AList ℚ) :
    (watchPart traits weights = none ↔ weights = [])
    ∧ (∀ t v, (sortAsc (contrib traits weights)).head? = some (t, v) →
        (t, v) ∈ contrib traits weights
        ∧ (∀ p ∈ contrib traits weights, v ≤ p.2)
        ∧ watchPart traits weights = some (if v ≤ 0 then weakText t else growthText t))
    ∧ (∀ t u : String, weakText t ≠ growthText u) := by
  refine ⟨?_, ?_, ?_⟩
  · cases hh : (sortAsc (contrib traits weights)).head? with
    | none =>
        have hnil : sortAsc (contrib traits weights) = [] := List.head?_eq_none_iff.mp hh
        have hc : contrib traits weights = [] := by
          have hlen : (contrib traits weights).length = 0 := by
            rw [← List.length_insertionSort scoreLE (contrib traits weights)]
            rw [sortAsc] at hnil
            rw [hnil]
            rfl
          exact List.length_eq_zero.mp hlen
        have hw : weights = [] := by
          rw [contrib] at hc
          exact List.map_eq_nil_iff.mp hc
        constructor
        · intro _
          exact hw
        · intro _
          rw [watchPart, hh]
    | some p =>
        obtain ⟨t, v⟩ := p
        constructor
        · intro hnone
          rw [watchPart, hh] at hnone
          by_cases hv : v ≤ 0 <;> simp [hv] at hnone
        · intro hw
          rw [hw] at hh
          simp [contrib, sortAsc, List.insertionSort] at hh
  · intro t v hh
    have hmemS : (t, v) ∈ sortAsc (contrib traits weights) :=
      List.mem_of_mem_head? hh
    have hmem : (t, v) ∈ contrib traits weights := by
      rw [sortAsc] at hmemS
      exact (List.mem_insertionSort scoreLE).mp hmemS
    refine ⟨hmem, ?_, ?_⟩
    · intro p hp
      have hpS : p ∈ sortAsc (contrib traits weights) := by
        rw [sortAsc]
        exact (List.mem_insertionSort scoreLE).mpr hp
      have hsorted : List.Sorted scoreLE (sortAsc (contrib traits weights)) :=
        List.sorted_insertionSort scoreLE (contrib traits weights)
      cases hl : sortAsc (contrib traits weights) with
      | nil =>
          rw [hl] at hh
          simp at hh
      | cons a r =>
          rw [hl] at hh
          have ha : a = (t, v) := by
            simpa using hh
          rw [hl] at hpS hsorted
          rcases List.mem_cons.mp hpS with h | h
          · rw [h, ha]
          · have := List.rel_of_sorted_cons hsorted p h
            rw [ha] at this
            exact this
    · rw [watchPart, hh]
      by_cases hv : v ≤ 0 <;> simp [hv]
  · intro t u h
    have hd := congrArg String.data h
    simp [weakText, growthText] at hd

/-- Witness for C3: an empty weight mapping omits the watch-out, and a
lowest contribution of -1 selects the weaker/conflicts sentence. -/
theorem explain_watchout_lowest_witness :
    watchPart [("E", (1 : ℚ))] [] = none
    ∧ watchPart [("E", (1 : ℚ))] [("E", -1), ("C", 2)]
        = some (if (-1 : ℚ) ≤ 0 then weakText "E" else growthText "E") :=
  ⟨(explain_watchout_lowest [("E", (1 : ℚ))] []).1.mpr rfl,
   ((explain_watchout_lowest [("E", (1 : ℚ))] [("E", -1), ("C", 2)]).2.1 "E" (-1)
      (by simp [sortAsc, contrib, lookupD, lookupA, List.insertionSort,
        List.orderedInsert, scoreLE])).2.2⟩

theorem lookupA_const_map {α : Type} (c : α) (l : List String) (key : String) :
    lookupA (l.map (fun t => (t, c))) key = if key ∈ l then some c else none := by
  induction l with
  | nil => simp [lookupA]
  | cons t rest ih =>
      by_cases h : t = key
      · subst h
        simp [lookupA]
      · simp only [List.map_cons, lookupA, if_neg h, ih, List.mem_cons]
        by_cases h2 : key ∈ rest
        · simp [h2]
        · simp [h2, if_neg (fun h' : key = t => h h'.symm)]

theorem profileInv_init : ProfileInv UserProfile.init := by
  refine ⟨?_, ?_, ?_⟩
  · intro t
    simp only [UserProfile.init, lookupA_const_map]
    by_cases h : t ∈ TRAITS <;> simp [h]
  · intro t r n hr hn
    simp only [UserProfile.init, lookupA_const_map] at hr hn
    by_cases h : t ∈ TRAITS
    · rw [if_pos h] at hr hn
      obtain rfl : (0 : ℚ) = r := Option.some.inj hr
      obtain rfl : (0 : ℕ) = n := Option.some.inj hn
      norm_num
    · rw [if_neg h] at hr
      exact absurd hr (by simp)
  · show ((TRAITS.map (fun t => (t, (0 : ℚ)))).map Prod.fst).Nodup
    rw [List.map_map]
    have hcomp : (Prod.fst ∘ fun t : String => (t, (0 : ℚ))) = id := rfl
    rw [hcomp, List.map_id]
    decide

theorem update_trait_lookup_other (p : UserProfile) (trait t : String) (score : ℤ)
    (reverse : Bool) (hne : trait ≠ t) :
    lookupA (p.update_trait trait score reverse).raw t = lookupA p.raw t
    ∧ lookupA (p.update_trait trait score reverse).cnt t = lookupA p.cnt t := by
  simp only [UserProfile.update_trait]
  by_cases hp : (lookupA p.raw trait).isSome
  · rw [if_pos hp]
    constructor
    · rw [lookupA_addVal, if_neg (fun h => hne h.symm)]
    · rw [lookupA_addVal, if_neg (fun h => hne h.symm)]
  · rw [if_neg hp]
    constructor
    · rw [lookupA_addVal, if_neg (fun h => hne h.symm), lookupA_append]
      cases h : lookupA p.raw t with
      | some v => rfl
      | none => simp [lookupA, fun h' : trait = t => hne h']
    · rw [lookupA_addVal, if_neg (fun h => hne h.symm), lookupA_append]
      cases h : lookupA p.cnt t with
      | some v => rfl
      | none => simp [lookupA, fun h' : trait = t => hne h']

theorem profileInv_addVal (trait : String) (q : UserProfile) (v : ℚ)
    (hv1 : 1 ≤ v) (hv5 : v ≤ 5) (hq : ProfileInv q)
    (hsome : (lookupA q.raw trait).isSome) :
    ProfileInv ⟨addVal q.raw trait v, addVal q.cnt trait 1⟩ := by
  obtain ⟨hiff, hbounds, hnd⟩ := hq
  obtain ⟨r0, hr0⟩ := Option.isSome_iff_exists.mp hsome
  have hcsome : (lookupA q.cnt trait).isSome := (hiff trait).mp hsome
  obtain ⟨n0, hn0⟩ := Option.isSome_iff_exists.mp hcsome
  refine ⟨?_, ?_, ?_⟩
  · intro t
    show (lookupA (addVal q.raw trait v) t).isSome ↔ (lookupA (addVal q.cnt trait 1) t).isSome
    rw [lookupA_addVal, lookupA_addVal]
    by_cases ht : t = trait
    · subst ht
      rw [if_pos rfl, if_pos rfl, hr0, hn0]
      simp
    · rw [if_neg ht, if_neg ht]
      exact hiff t
  · intro t r n hr hn
    rw [show (⟨addVal q.raw trait v, addVal q.cnt trait 1⟩ : UserProfile).raw
        = addVal q.raw trait v from rfl, lookupA_addVal] at hr
    rw [show (⟨addVal q.raw trait v, addVal q.cnt trait 1⟩ : UserProfile).cnt
        = addVal q.cnt trait 1 from rfl, lookupA_addVal] at hn
    by_cases ht : t = trait
    · subst ht
      rw [if_pos rfl, hr0] at hr
      rw [if_pos rfl, hn0] at hn
      have hr' : r0 + v = r := by simpa using hr
      have hn' : n0 + 1 = n := by simpa using hn
      have hb := hbounds t r0 n0 hr0 hn0
      rw [← hr', ← hn']
      push_cast
      constructor <;> linarith [hb.1, hb.2]
    · rw [if_neg ht] at hr hn
      exact hbounds t r n hr hn
  · show ((addVal q.raw trait v).map Prod.fst).Nodup
    rw [keys_addVal]
    exact hnd

theorem profileInv_update (p : UserProfile) (trait : String) (score : ℤ) (reverse : Bool)
    (hs1 : 1 ≤ score) (hs2 : score ≤ 5) (h : ProfileInv p) :
    ProfileInv (p.update_trait trait score reverse) := by
  have hsq1 : (1 : ℚ) ≤ (score : ℚ) := by exact_mod_cast hs1
  have hsq5 : (score : ℚ) ≤ 5 := by exact_mod_cast hs2
  have hval1 : (1 : ℚ) ≤ (if reverse then 6 - (score : ℚ) else (score : ℚ)) := by
    cases reverse
    · simpa using hsq1
    · simp only [if_true]
      linarith
  have hval5 : (if reverse then 6 - (score : ℚ) else (score : ℚ)) ≤ 5 := by
    cases reverse
    · simpa using hsq5
    · simp only [if_true]
      linarith
  by_cases hp : (lookupA p.raw trait).isSome
  · have hstep := profileInv_addVal trait p
      (if reverse then 6 - (score : ℚ) else (score : ℚ)) hval1 hval5 h hp
    simpa [UserProfile.update_trait, hp] using hstep
  · have hrnone : lookupA p.raw trait = none := Option.not_isSome_iff_eq_none.mp hp
    have hiff' : ∀ t, (lookupA (p.raw ++ [(trait, (0 : ℚ))]) t).isSome
        ↔ (lookupA (p.cnt ++ [(trait, (0 : ℕ))]) t).isSome := by
      intro t
      rw [lookupA_append, lookupA_append]
      cases h1 : lookupA p.raw t with
      | some v =>
          have h2 := (h.1 t).mp (by simp [h1])
          obtain ⟨w, hw⟩ := Option.isSome_iff_exists.mp h2
          rw [hw]
          simp
      | none =>
          have h2 : lookupA p.cnt t = none := by
            cases h2 : lookupA p.cnt t with
            | none => rfl
            | some w => exact absurd ((h.1 t).mpr (by simp [h2])) (by simp [h1])
          rw [h2]
          by_cases htr : trait = t <;> simp [lookupA, htr]
    have hb' : ∀ t r n, lookupA (p.raw ++ [(trait, (0 : ℚ))]) t = some r →
        lookupA (p.cnt ++ [(trait, (0 : ℕ))]) t = some n → (n : ℚ) ≤ r ∧ r ≤ 5 * n := by
      intro t r n hr hn
      rw [lookupA_append] at hr hn
      cases h1 : lookupA p.raw t with
      | some v =>
          rw [h1] at hr
          have h2 := (h.1 t).mp (by simp [h1])
          obtain ⟨w, hw⟩ := Option.isSome_iff_exists.mp h2
          rw [hw] at hn
          have hrv : v = r := by simpa using hr
          have hnw : w = n := by simpa using hn
          rw [← hrv, ← hnw]
          exact h.2.1 t v w h1 hw
      | none =>
          have h2 : lookupA p.cnt t = none := by
            cases h2 : lookupA p.cnt t with
            | none => rfl
            | some w => exact absurd ((h.1 t).mpr (by simp [h2])) (by simp [h1])
          rw [h1] at hr
          rw [h2] at hn
          by_cases htr : trait = t
          · simp only [lookupA, if_pos htr] at hr hn
            have hr' : (0 : ℚ) = r := by simpa using hr
            have hn' : (0 : ℕ) = n := by simpa using hn
            rw [← hr', ← hn']
            norm_num
          · simp [lookupA, htr] at hr
    have hnd' : ((p.raw ++ [(trait, (0 : ℚ))]).map Prod.fst).Nodup := by
      rw [List.map_append]
      rw [List.nodup_append]
      refine ⟨h.2.2, by simp, ?_⟩
      intro a ha hb
      simp only [List.map_cons, List.map_nil, List.mem_cons, List.not_mem_nil,
        or_false] at hb
      subst hb
      exact (lookupA_eq_none_iff p.raw a).mp hrnone ha
    have hsome' : (lookupA (p.raw ++ [(trait, (0 : ℚ))]) trait).isSome := by
      rw [lookupA_append, hrnone]
      simp [lookupA]
    have hstep := profileInv_addVal trait ⟨p.raw ++ [(trait, 0)], p.cnt ++ [(trait, 0)]⟩
      (if reverse then 6 - (score : ℚ) else (score : ℚ)) hval1 hval5
      ⟨hiff', hb', hnd'⟩ hsome'
    simpa [UserProfile.update_trait, hp] using hstep

theorem profileInv_build (answers : List (String × ℤ × Bool))
    (hb : ∀ a ∈ answers, 1 ≤ a.2.1 ∧ a.2.1 ≤ 5) :
    ProfileInv (buildProfile answers) := by
  rw [buildProfile]
  have hgen : ∀ (l : List (String × ℤ × Bool)) (q : UserProfile),
      (∀ a ∈ l, 1 ≤ a.2.1 ∧ a.2.1 ≤ 5) → ProfileInv q →
      ProfileInv (l.foldl (fun p a => p.update_trait a.1 a.2.1 a.2.2) q) := by
    intro l
    induction l with
    | nil =>
        intro q _ hq
        exact hq
    | cons a l ih =>
        intro q hl hq
        rw [List.foldl_cons]
        exact ih _ (fun x hx => hl x (List.mem_cons_of_mem a hx))
          (profileInv_update q a.1 a.2.1 a.2.2 (hl a (List.mem_cons_self a l)).1
            (hl a (List.mem_cons_self a l)).2 hq)
  exact hgen answers UserProfile.init hb profileInv_init

theorem build_lookup_untouched (answers : List (String × ℤ × Bool)) (t : String)
    (hn : ∀ a ∈ answers, a.1 ≠ t) :
    lookupA (buildProfile answers).raw t = lookupA UserProfile.init.raw t
    ∧ lookupA (buildProfile answers).cnt t = lookupA UserProfile.init.cnt t := by
  rw [buildProfile]
  have hgen : ∀ (l : List (String × ℤ × Bool)) (q : UserProfile), (∀ a ∈ l, a.1 ≠ t) →
      lookupA (l.foldl (fun p a => p.update_trait a.1 a.2.1 a.2.2) q).raw t
        = lookupA q.raw t
      ∧ lookupA (l.foldl (fun p a => p.update_trait a.1 a.2.1 a.2.2) q).cnt t
        = lookupA q.cnt t := by
    intro l
    induction l with
    | nil =>
        intro q _
        exact ⟨rfl, rfl⟩
    | cons a l ih =>
        intro q hl
        rw [List.foldl_cons]
        have hstep := update_trait_lookup_other q a.1 t a.2.1 a.2.2
          (hl a (List.mem_cons_self a l))
        have hrest := ih (q.update_trait a.1 a.2.1 a.2.2)
          (fun x hx => hl x (List.mem_cons_of_mem a hx))
        exact ⟨hrest.1.trans hstep.1, hrest.2.trans hstep.2⟩
  exact hgen answers UserProfile.init hn

theorem lookupA_finalize (p : UserProfile) (t : String) :
    lookupA p.finalize t = (lookupA p.raw t).map (fun r =>
      ((if lookupD p.cnt t 0 = 0 then (3 : ℚ)
        else r / (lookupD p.cnt t 0 : ℕ)) - 1) / 4) :=
  lookupA_map_entry
    (fun k r => ((if lookupD p.cnt k 0 = 0 then (3 : ℚ)
      else r / (lookupD p.cnt k 0 : ℕ)) - 1) / 4) p.raw t

/-- C4: every finalized trait value of a profile built from Likert answers
in `[1, 5]` (reverse-scored answers mapped to `6 - score`) lies in `[0, 1]`,
and a trait that received no answers finalizes to exactly `1/2`. -/
theorem finalized_traits_in_unit_interval (answers : List (String × ℤ × Bool))
    (hb : ∀ a ∈ answers, 1 ≤ a.2.1 ∧ a.2.1 ≤ 5) :
    (∀ q ∈ (buildProfile answers).finalize, 0 ≤ q.2 ∧ q.2 ≤ 1)
    ∧ (∀ t ∈ TRAITS, (∀ a ∈ answers, a.1 ≠ t) →
        lookupA (buildProfile answers).finalize t = some (1 / 2)) := by
  have hinv := profileInv_build answers hb
  constructor
  · intro q hq
    rw [UserProfile.finalize] at hq
    rcases List.mem_map.mp hq with ⟨e, he, rfl⟩
    dsimp only
    have hre : lookupA (buildProfile answers).raw e.1 = some e.2 :=
      lookupA_of_mem_nodup he hinv.2.2
    have hcs : (lookupA (buildProfile answers).cnt e.1).isSome :=
      (hinv.1 e.1).mp (by simp [hre])
    obtain ⟨n, hn⟩ := Option.isSome_iff_exists.mp hcs
    have hbnd := hinv.2.1 e.1 e.2 n hre hn
    have hnd : lookupD (buildProfile answers).cnt e.1 0 = n := by
      rw [lookupD, hn]
      rfl
    rw [hnd]
    by_cases h0 : n = 0
    · rw [if_pos h0]
      norm_num
    · have hnpos : (0 : ℚ) < (n : ℕ) := by
        exact_mod_cast Nat.pos_of_ne_zero h0
      have h1le : (1 : ℚ) ≤ e.2 / (n : ℕ) := (one_le_div hnpos).mpr hbnd.1
      have h5ge : e.2 / (n : ℕ) ≤ 5 := (div_le_iff₀ hnpos).mpr (by linarith [hbnd.2])
      rw [if_neg h0]
      constructor
      · apply div_nonneg _ (by norm_num)
        linarith
      · rw [div_le_one (by norm_num)]
        linarith
  · intro t ht hun
    have hraw := (build_lookup_untouched answers t hun).1
    have hcnt := (build_lookup_untouched answers t hun).2
    have hrawi : lookupA UserProfile.init.raw t = some 0 := by
      simp only [UserProfile.init, lookupA_const_map, if_pos ht]
    have hcnti : lookupA UserProfile.init.cnt t = some 0 := by
      simp only [UserProfile.init, lookupA_const_map, if_pos ht]
    have hcnt0 : lookupD (buildProfile answers).cnt t 0 = 0 := by
      rw [lookupD, hcnt, hcnti]
      rfl
    rw [lookupA_finalize, hraw, hrawi, hcnt0]
    norm_num

/-- Witness for C4: after one answer on trait E, the unanswered trait C
finalizes to exactly 1/2. -/
theorem finalized_traits_in_unit_interval_witness :
    lookupA ((buildProfile [("E", 5, false)]).finalize) "C" = some (1 / 2) :=
  (finalized_traits_in_unit_interval [("E", 5, false)] (by decide)).2 "C"
    (by decide) (by decide)

theorem explainLoop_isSome (careers : List Career) (traits : AList ℚ) :
    ∀ (topk : List (String × ℚ)) (acc : AList String),
      (explainLoop careers traits acc topk).isSome
        ↔ ∀ p ∈ topk, ∃ c ∈ careers, c.name = p.1 := by
  intro topk
  induction topk with
  | nil =>
      intro acc
      simp [explainLoop]
  | cons q rest ih =>
      intro acc
      obtain ⟨name, s⟩ := q
      cases hf : findCareer careers name with
      | none =>
          simp only [explainLoop, hf]
          constructor
          · intro h
            simp at h
          · intro hall
            obtain ⟨c, hc, hcn⟩ := hall (name, s) (List.mem_cons_self _ _)
            have := List.find?_eq_none.mp hf c hc
            simp [findCareer] at hf
            exact absurd hcn (hf c hc)
      | some c =>
          simp only [explainLoop, hf]
          rw [ih (insertA acc name (explainText c traits))]
          constructor
          · intro h p hp
            rcases List.mem_cons.mp hp with hph | hp'
            · subst hph
              refine ⟨c, List.mem_of_find?_eq_some hf, ?_⟩
              have := List.find?_some hf
              simpa using this
            · exact h p hp'
          · intro h p hp
            exact h p (List.mem_cons_of_mem _ hp)

theorem explainLoop_preserve (careers : List Career) (traits : AList ℚ) :
    ∀ (topk : List (String × ℚ)) (acc : AList String) (m : AList String) (x : String),
      explainLoop careers traits acc topk = some m →
      (∀ p ∈ topk, p.1 ≠ x) → lookupA m x = lookupA acc x := by
  intro topk
  induction topk with
  | nil =>
      intro acc m x hm _
      obtain rfl : acc = m := by simpa [explainLoop] using hm
      rfl
  | cons q rest ih =>
      intro acc m x hm hx
      obtain ⟨name, s⟩ := q
      cases hf : findCareer careers name with
      | none =>
          rw [explainLoop, hf] at hm
          exact absurd hm (by simp)
      | some c =>
          rw [explainLoop, hf] at hm
          have hrest := ih (insertA acc name (explainText c traits)) m x hm
            (fun p hp => hx p (List.mem_cons_of_mem _ hp))
          rw [hrest, lookupA_insertA,
            if_neg (fun h => hx (name, s) (List.mem_cons_self _ _) h.symm)]

theorem explainLoop_lookup (careers : List Career) (traits : AList ℚ) :
    ∀ (topk : List (String × ℚ)) (acc : AList String) (m : AList String),
      explainLoop careers traits acc topk = some m →
      (topk.map Prod.fst).Nodup →
      ∀ p ∈ topk, ∃ c, findCareer careers p.1 = some c
        ∧ lookupA m p.1 = some (explainText c traits) := by
  intro topk
  induction topk with
  | nil =>
      intro acc m _ _ p hp
      simp at hp
  | cons q rest ih =>
      intro acc m hm hnd p hp
      obtain ⟨name, s⟩ := q
      simp only [List.map_cons, List.nodup_cons] at hnd
      cases hf : findCareer careers name with
      | none =>
          rw [explainLoop, hf] at hm
          exact absurd hm (by simp)
      | some c =>
          rw [explainLoop, hf] at hm
          rcases List.mem_cons.mp hp with hph | hp'
          · subst hph
            refine ⟨c, hf, ?_⟩
            have hpres := explainLoop_preserve careers traits rest
              (insertA acc name (explainText c traits)) m name hm ?_
            · rw [hpres, lookupA_insertA, if_pos rfl]
            · intro r hr hcontra
              exact hnd.1 (hcontra ▸ List.mem_map.mpr ⟨r, hr, rfl⟩)
          · exact ih (insertA acc name (explainText c traits)) m hm hnd.2 p hp'

/-- C5: `Recommender.explain` resolves each ranked name by exact, untrimmed
equality against the trimmed key produced by `Recommender.score`, taking the
first match in list order (it succeeds exactly when every ranked name has an
exact match, and the explanation text comes from `findCareer`, the first
exact match); concretely, with records named `"Dup"` and `" Dup "`, the
score stored under `"Dup"` comes from the `" Dup "` record while the
explanation uses the `"Dup"` record with different weights, and when only
`" Dup "` exists the lookup finds nothing and `explain` aborts (modelled as
`none` for the raised `StopIteration`). -/
theorem explain_exact_name_lookup :
    (∀ (careers : List Career) (traits : AList ℚ) (topk : List (String × ℚ)),
      ((Recommender.explain careers traits topk).isSome
        ↔ ∀ p ∈ topk, ∃ c ∈ careers, c.name = p.1)
      ∧ (∀ m, Recommender.explain careers traits topk = some m →
          (topk.map Prod.fst).Nodup →
          ∀ p ∈ topk, ∃ c, findCareer careers p.1 = some c
            ∧ lookupA m p.1 = some (explainText c traits)))
    ∧ lookupA (Recommender.score WeightedScorer.score (Preferences.mk 3 3 3 3)
          [Career.mk "Dup" [("E", 1)] [], Career.mk " Dup " [("E", 2)] []] [("E", 1)]) "Dup"
        = some (careerScore WeightedScorer.score (Preferences.mk 3 3 3 3).to_weights
            [("E", 1)] (Career.mk " Dup " [("E", 2)] []))
    ∧ findCareer [Career.mk "Dup" [("E", 1)] [], Career.mk " Dup " [("E", 2)] []] "Dup"
        = some (Career.mk "Dup" [("E", 1)] [])
    ∧ (Career.mk "Dup" [("E", 1)] []).weights ≠ (Career.mk " Dup " [("E", 2)] []).weights
    ∧ Recommender.explain [Career.mk " Dup " [("E", 2)] []] [("E", 1)] [("Dup", 2)] = none := by
  refine ⟨?_, ?_, by decide, by decide, by decide⟩
  · intro careers traits topk
    exact ⟨explainLoop_isSome careers traits topk [],
      fun m hm hnd p hp => explainLoop_lookup careers traits topk [] m hm hnd p hp⟩
  · rw [Recommender.score, lookupA_foldl_insert (careerScore WeightedScorer.score
      (Preferences.mk 3 3 3 3).to_weights [("E", 1)]) (fun c => pyStrip c.name)]
    have hfil : ([Career.mk "Dup" [("E", 1)] [], Career.mk " Dup " [("E", 2)] []].filter
        (fun c => pyStrip c.name == "Dup"))
        = [Career.mk "Dup" [("E", 1)] [], Career.mk " Dup " [("E", 2)] []] := by decide
    rw [hfil]
    rfl

/-- Witness for C5: a ranked name with an exact match makes `explain`
succeed. -/
theorem explain_exact_name_lookup_witness :
    (Recommender.explain [Career.mk "A" [] []] [] [("A", 0)]).isSome :=
  (explain_exact_name_lookup.1 [Career.mk "A" [] []] [] [("A", 0)]).1.mpr (by decide)

end CareerMatcher
